import Mathlib

/-!
Verification development for the learning-path scheduler core of the ALP
repository: the knowledge-graph engine (`getPrerequisites`,
`canAccessConcept`, `generateLearningPath`, `calculatePriority`) and the
adaptation loop's `reorderPath`.

JavaScript numbers are modelled as rationals (`ℚ`), JS `Map` objects as
association lists with first-match lookup and in-place update (preserving
insertion order, as JS `Map` iteration does), and JS arrays as lists.
Database rows fetched at the start of a call are modelled as explicit input
lists, so every function is a pure function of its snapshot, as in the
source once the `await`ed fetches have materialized.
-/

namespace ALP

/-- Association-list model of a JS `Map`: lookup returns the value of the
first (unique-keyed) entry. -/
def mapLookup {α : Type} (m : List (String × α)) (k : String) : Option α :=
  (m.find? (fun e => decide (e.1 = k))).map (·.2)

/-- Association-list model of `Map.set`: update the existing entry in place
(JS keeps the original insertion position) or append a fresh entry. -/
def mapSet {α : Type} (m : List (String × α)) (k : String) (v : α) :
    List (String × α) :=
  if m.any (fun e => decide (e.1 = k)) then
    m.map (fun e => if e.1 = k then (k, v) else e)
  else
    m ++ [(k, v)]

/-- Helper for `dedupFirst`: keep elements not seen yet, in order. -/
def dedupFirstAux (seen : List String) : List String → List String
  | [] => []
  | x :: xs =>
    if x ∈ seen then dedupFirstAux seen xs
    else x :: dedupFirstAux (x :: seen) xs

/-- Model of `[...new Set(xs)]`: deduplicate keeping first occurrences, as a
JS `Set` preserves insertion order. -/
def dedupFirst (l : List String) : List String := dedupFirstAux [] l

theorem mem_dedupFirstAux {x : String} : ∀ (l seen : List String),
    x ∈ dedupFirstAux seen l ↔ x ∈ l ∧ x ∉ seen := by
  intro l
  induction l with
  | nil => intro seen; simp [dedupFirstAux]
  | cons y ys ih =>
    intro seen
    unfold dedupFirstAux
    by_cases hy : y ∈ seen
    · rw [if_pos hy, ih]
      simp only [List.mem_cons]
      constructor
      · rintro ⟨h1, h2⟩; exact ⟨Or.inr h1, h2⟩
      · rintro ⟨rfl | h1, h2⟩
        · exact absurd hy h2
        · exact ⟨h1, h2⟩
    · rw [if_neg hy]
      simp only [List.mem_cons, ih]
      constructor
      · rintro (rfl | ⟨h1, h2⟩)
        · exact ⟨Or.inl rfl, hy⟩
        · exact ⟨Or.inr h1, fun hc => h2 (Or.inr hc)⟩
      · rintro ⟨rfl | h1, h2⟩
        · exact Or.inl rfl
        · by_cases hxy : x = y
          · exact Or.inl hxy
          · exact Or.inr ⟨h1, fun hc => hc.elim hxy h2⟩

theorem mem_dedupFirst {x : String} {l : List String} :
    x ∈ dedupFirst l ↔ x ∈ l := by
  unfold dedupFirst
  rw [mem_dedupFirstAux]
  simp

theorem mapLookup_nil {α : Type} (k : String) :
    mapLookup ([] : List (String × α)) k = none := rfl

theorem mapLookup_cons {α : Type} (a : String) (v : α)
    (es : List (String × α)) (k : String) :
    mapLookup ((a, v) :: es) k = if a = k then some v else mapLookup es k := by
  by_cases h : a = k
  · simp [mapLookup, List.find?_cons_of_pos, h]
  · simp [mapLookup, List.find?_cons_of_neg, h]

theorem mapLookup_isSome_iff {α : Type} {m : List (String × α)} {k : String} :
    (mapLookup m k).isSome ↔ ∃ v, (k, v) ∈ m := by
  induction m with
  | nil => simp [mapLookup]
  | cons e es ih =>
    obtain ⟨a, v⟩ := e
    rw [mapLookup_cons]
    by_cases h : a = k
    · subst h
      simp
    · simp only [if_neg h, ih, List.mem_cons]
      constructor
      · rintro ⟨w, hw⟩; exact ⟨w, Or.inr hw⟩
      · rintro ⟨w, hw | hw⟩
        · cases hw; exact absurd rfl h
        · exact ⟨w, hw⟩

/-! ## Knowledge-graph engine: prerequisite closure (`getPrerequisites`)

The source keeps two mutable accumulators, `visited : Set<string>` and
`prerequisites : string[]`, and runs a recursive `traverse` that marks the
current id visited, fetches the concept's direct prerequisite relations,
pushes each `prerequisiteId` and recurses into it.  The graph snapshot is a
list pairing each concept id with its direct prerequisite ids; a concept
absent from the snapshot models `findUnique` returning `null`.  Recursion
depth is modelled by explicit fuel (the source has no bound; the theorems
show a fuel of `travBound` already reaches the fixpoint, which is the
termination claim). -/

structure TravState where
  visited : List String
  prerequisites : List String
deriving DecidableEq

/-- Model of the `findUnique` fetch of a concept together with its direct
prerequisite ids. -/
def conceptPrereqs (g : List (String × List String)) (id : String) :
    Option (List String) :=
  mapLookup g id

/-- Model of the source's recursive `traverse`: skip if visited, mark
visited, then (if the concept row exists) push each direct prerequisite and
recurse into it, in order.  The fuel bounds recursion depth only: the inner
`for` loop over the prerequisite relations is a fold that hands each nested
call one level less fuel, exactly as each JS stack frame is one level
deeper. -/
def traverse (g : List (String × List String)) :
    Nat → String → TravState → TravState
  | 0, _, s => s
  | fuel + 1, id, s =>
    if id ∈ s.visited then s
    else
      let s1 : TravState := ⟨id :: s.visited, s.prerequisites⟩
      match conceptPrereqs g id with
      | none => s1
      | some ps =>
        ps.foldl (fun st p =>
          traverse g fuel p ⟨st.visited, st.prerequisites ++ [p]⟩) s1

/-- All ids that occur as a direct prerequisite anywhere in the snapshot;
only these (and the root) can ever be traversed. -/
def allPrereqIds (g : List (String × List String)) : List String :=
  (g.map (·.2)).flatten

/-- Fuel that the termination theorems show is always sufficient: one level
for the root plus one per prerequisite occurrence. -/
def travBound (g : List (String × List String)) : Nat :=
  (allPrereqIds g).length + 2

/-- Model of `getPrerequisites`: run the traversal from an empty state and
return the accumulated prerequisite id list. -/
def getPrerequisites (g : List (String × List String)) (conceptId : String) :
    List String :=
  (traverse g (travBound g) conceptId ⟨[], []⟩).prerequisites

/-- One step of the prerequisite `for` loop, named for use in lemmas. -/
def travStep (g : List (String × List String)) (fuel : Nat)
    (st : TravState) (p : String) : TravState :=
  traverse g fuel p ⟨st.visited, st.prerequisites ++ [p]⟩

theorem traverse_succ (g : List (String × List String)) (fuel : Nat)
    (id : String) (s : TravState) :
    traverse g (fuel + 1) id s =
      if id ∈ s.visited then s
      else
        match conceptPrereqs g id with
        | none => ⟨id :: s.visited, s.prerequisites⟩
        | some ps => ps.foldl (travStep g fuel) ⟨id :: s.visited, s.prerequisites⟩ :=
  rfl

theorem conceptPrereqs_sub {g : List (String × List String)} {id : String}
    {ps : List String} (h : conceptPrereqs g id = some ps) :
    ∀ p ∈ ps, p ∈ allPrereqIds g := by
  intro p hp
  unfold conceptPrereqs mapLookup at h
  obtain ⟨e, he, hev⟩ := Option.map_eq_some'.mp h
  have hmem : e ∈ g := List.mem_of_find?_eq_some he
  exact List.mem_flatten.mpr ⟨e.2, List.mem_map.mpr ⟨e, hmem, rfl⟩, hev ▸ hp⟩

/-- Visited-set invariants of the traversal: the visited set only grows,
and it never acquires a duplicate (the first guard short-circuits). -/
theorem traverse_visited_inv (g : List (String × List String)) :
    ∀ fuel : Nat, ∀ (id : String) (s : TravState),
      s.visited ⊆ (traverse g fuel id s).visited ∧
      (s.visited.Nodup → (traverse g fuel id s).visited.Nodup) := by
  intro fuel
  induction fuel with
  | zero =>
    intro id s
    exact ⟨fun _ hx => hx, fun h => h⟩
  | succ fuel ih =>
    have hfold : ∀ (ps : List String) (s : TravState),
        s.visited ⊆ (ps.foldl (travStep g fuel) s).visited ∧
        (s.visited.Nodup → (ps.foldl (travStep g fuel) s).visited.Nodup) := by
      intro ps
      induction ps with
      | nil => intro s; exact ⟨fun _ hx => hx, fun h => h⟩
      | cons p ps ihp =>
        intro s
        rw [List.foldl_cons]
        have h1 := ih p ⟨s.visited, s.prerequisites ++ [p]⟩
        have h2 := ihp (travStep g fuel s p)
        exact ⟨fun x hx => h2.1 (h1.1 hx), fun hn => h2.2 (h1.2 hn)⟩
    intro id s
    rw [traverse_succ]
    by_cases hv : id ∈ s.visited
    · rw [if_pos hv]
      exact ⟨fun _ hx => hx, fun h => h⟩
    · rw [if_neg hv]
      cases hc : conceptPrereqs g id with
      | none =>
        dsimp only
        exact ⟨fun x hx => List.mem_cons_of_mem _ hx,
          fun hn => List.nodup_cons.mpr ⟨hv, hn⟩⟩
      | some ps =>
        dsimp only
        have h1 := hfold ps ⟨id :: s.visited, s.prerequisites⟩
        exact ⟨fun x hx => h1.1 (List.mem_cons_of_mem _ hx),
          fun hn => h1.2 (List.nodup_cons.mpr ⟨hv, hn⟩)⟩

/-- Count of prerequisite occurrences in the snapshot not yet visited: the
termination measure of the traversal. -/
def remCount (g : List (String × List String)) (s : TravState) : Nat :=
  ((allPrereqIds g).filter (fun y => decide (y ∉ s.visited))).length

theorem remCount_mono {g : List (String × List String)} {s t : TravState}
    (h : s.visited ⊆ t.visited) : remCount g t ≤ remCount g s := by
  unfold remCount
  apply List.Sublist.length_le
  apply List.monotone_filter_right
  intro a ha
  simp only [decide_eq_true_eq] at ha ⊢
  exact fun hmem => ha (h hmem)

theorem length_filter_visited_lt {x : String} {vis : List String}
    (hnv : x ∉ vis) :
    ∀ {l : List String}, x ∈ l →
      (l.filter (fun y => decide (y ∉ x :: vis))).length <
        (l.filter (fun y => decide (y ∉ vis))).length := by
  intro l
  induction l with
  | nil => intro h; cases h
  | cons a l ih =>
    intro hx
    have hmono : (l.filter (fun y => decide (y ∉ x :: vis))).length ≤
        (l.filter (fun y => decide (y ∉ vis))).length := by
      apply List.Sublist.length_le
      apply List.monotone_filter_right
      intro a ha
      simp only [decide_eq_true_eq, List.mem_cons, not_or] at ha ⊢
      exact ha.2
    by_cases hax : a = x
    · subst hax
      rw [List.filter_cons_of_neg (by simp),
        List.filter_cons_of_pos (by simpa using hnv)]
      exact Nat.lt_succ_of_le hmono
    · have hx' : x ∈ l := by
        rcases List.mem_cons.mp hx with h | h
        · exact absurd h.symm hax
        · exact h
      by_cases hav : a ∈ vis
      · rw [List.filter_cons_of_neg (by simp [hav]),
          List.filter_cons_of_neg (by simpa using hav)]
        exact ih hx'
      · rw [List.filter_cons_of_pos (by simp [hax, hav]),
          List.filter_cons_of_pos (by simpa using hav)]
        simpa using ih hx'

theorem remCount_strict {g : List (String × List String)} {s : TravState}
    {id : String} (hid : id ∈ allPrereqIds g) (hv : id ∉ s.visited)
    (pr : List String) :
    remCount g ⟨id :: s.visited, pr⟩ < remCount g s :=
  length_filter_visited_lt hv hid

theorem remCount_pos {g : List (String × List String)} {s : TravState}
    {id : String} (hid : id ∈ allPrereqIds g) (hv : id ∉ s.visited) :
    1 ≤ remCount g s := by
  have : id ∈ (allPrereqIds g).filter (fun y => decide (y ∉ s.visited)) :=
    List.mem_filter.mpr ⟨hid, by simpa⟩
  exact List.length_pos.mpr (List.ne_nil_of_mem this)

/-- Stability of the traversal in the fuel: once the fuel exceeds the number
of not-yet-visited prerequisite occurrences, the result no longer depends on
it.  This is the mathematical content of "the visited set prevents re-entry,
so the recursion depth is bounded" — the source's unbounded recursion
terminates. -/
theorem traverse_stable_aux (g : List (String × List String)) :
    ∀ n : Nat,
      (∀ (id : String) (s : TravState) (f₁ f₂ : Nat), id ∈ allPrereqIds g →
        remCount g s ≤ n → n < f₁ → n < f₂ →
        traverse g f₁ id s = traverse g f₂ id s) ∧
      (∀ (ps : List String) (s : TravState) (f₁ f₂ : Nat),
        (∀ p ∈ ps, p ∈ allPrereqIds g) →
        remCount g s ≤ n → n < f₁ → n < f₂ →
        ps.foldl (travStep g f₁) s = ps.foldl (travStep g f₂) s) := by
  intro n
  induction n using Nat.strong_induction_on with
  | _ n ih =>
  have hT : ∀ (id : String) (s : TravState) (f₁ f₂ : Nat),
      id ∈ allPrereqIds g → remCount g s ≤ n → n < f₁ → n < f₂ →
      traverse g f₁ id s = traverse g f₂ id s := by
    intro id s f₁ f₂ hid hrc h1 h2
    obtain ⟨a, rfl⟩ : ∃ a, f₁ = a + 1 := ⟨f₁ - 1, by omega⟩
    obtain ⟨b, rfl⟩ : ∃ b, f₂ = b + 1 := ⟨f₂ - 1, by omega⟩
    rw [traverse_succ, traverse_succ]
    by_cases hv : id ∈ s.visited
    · rw [if_pos hv, if_pos hv]
    · rw [if_neg hv, if_neg hv]
      cases hc : conceptPrereqs g id with
      | none => rfl
      | some ps =>
        dsimp only
        have hpos := remCount_pos hid hv
        have hlt := remCount_strict (s := s) hid hv s.prerequisites
        exact (ih (n - 1) (by omega)).2 ps ⟨id :: s.visited, s.prerequisites⟩
          a b (conceptPrereqs_sub hc) (by omega) (by omega) (by omega)
  have hL : ∀ (ps : List String) (s : TravState) (f₁ f₂ : Nat),
      (∀ p ∈ ps, p ∈ allPrereqIds g) →
      remCount g s ≤ n → n < f₁ → n < f₂ →
      ps.foldl (travStep g f₁) s = ps.foldl (travStep g f₂) s := by
    intro ps
    induction ps with
    | nil => intro s f₁ f₂ _ _ _ _; rfl
    | cons p ps ihp =>
      intro s f₁ f₂ hsub hrc h1 h2
      rw [List.foldl_cons, List.foldl_cons]
      have hstep : travStep g f₁ s p = travStep g f₂ s p := by
        unfold travStep
        exact hT p ⟨s.visited, s.prerequisites ++ [p]⟩ f₁ f₂
          (hsub p (List.mem_cons_self _ _)) hrc h1 h2
      rw [hstep]
      apply ihp _ f₁ f₂ (fun q hq => hsub q (List.mem_cons_of_mem _ hq)) _ h1 h2
      calc remCount g (travStep g f₂ s p)
          ≤ remCount g s := remCount_mono
            ((traverse_visited_inv g f₂ p ⟨s.visited, s.prerequisites ++ [p]⟩).1)
        _ ≤ n := hrc
  exact ⟨hT, hL⟩

/-- Any fuel at least `travBound g` computes the same traversal from the
empty state (the root is unfolded one step by hand, since the root id need
not occur as a prerequisite). -/
theorem traverse_stable (g : List (String × List String)) (conceptId : String)
    (fuel : Nat) (h : travBound g ≤ fuel) :
    traverse g fuel conceptId ⟨[], []⟩ =
      traverse g (travBound g) conceptId ⟨[], []⟩ := by
  obtain ⟨a, rfl⟩ : ∃ a, fuel = a + 1 := ⟨fuel - 1, by
    have : 2 ≤ travBound g := by unfold travBound; omega
    omega⟩
  rw [show travBound g = ((allPrereqIds g).length + 1) + 1 from rfl]
  rw [traverse_succ, traverse_succ]
  rw [if_neg (List.not_mem_nil _), if_neg (List.not_mem_nil _)]
  cases hc : conceptPrereqs g conceptId with
  | none => rfl
  | some ps =>
    dsimp only
    apply (traverse_stable_aux g ((allPrereqIds g).length)).2 ps _ a _
      (conceptPrereqs_sub hc)
    · exact List.length_filter_le _ _
    · have : travBound g = (allPrereqIds g).length + 2 := rfl
      omega
    · omega

/-- C8: for every finite concept graph — cyclic ones and ones where a
concept is reachable via several paths included — `getPrerequisites`
terminates: the visited set prevents re-entry, so the recursion depth is
bounded, formalised as the fuel-indexed traversal having already reached its
fixpoint at `travBound g`; any deeper recursion allowance computes the same
closure, and no error arises on a cycle. -/
theorem C8_getPrerequisites_terminates (g : List (String × List String))
    (conceptId : String) (fuel : Nat) (h : travBound g ≤ fuel) :
    (traverse g fuel conceptId ⟨[], []⟩).prerequisites =
      getPrerequisites g conceptId := by
  rw [getPrerequisites, traverse_stable g conceptId fuel h]

/-- Witness for C8 on a two-node cyclic graph. -/
theorem C8_witness :
    travBound [("a", ["b"]), ("b", ["a"])] ≤ 10 ∧
    (traverse [("a", ["b"]), ("b", ["a"])] 10 "a" ⟨[], []⟩).prerequisites =
      getPrerequisites [("a", ["b"]), ("b", ["a"])] "a" :=
  ⟨by decide, C8_getPrerequisites_terminates _ "a" 10 (by decide)⟩

/-- C9 counterexample: with `r` depending on `x` and `y`, which both depend
on `p`, the returned collection is `["x", "p", "y", "p"]` — it contains the
duplicate `p`, so `getPrerequisites` does not return a set. -/
theorem C9_counterexample :
    ¬ (getPrerequisites [("r", ["x", "y"]), ("x", ["p"]), ("y", ["p"])]
        "r").Nodup := by decide

/-- C9 amended: the traversal visits each concept at most once — its visited
set contains no duplicate ids — but the returned prerequisite list is pushed
once per visited dependent, so it may repeat an id reachable through
multiple paths. -/
theorem C9_visited_nodup (g : List (String × List String))
    (conceptId : String) (fuel : Nat) :
    (traverse g fuel conceptId ⟨[], []⟩).visited.Nodup :=
  (traverse_visited_inv g fuel conceptId ⟨[], []⟩).2 List.nodup_nil

/-! ## Knowledge-graph engine: `generateLearningPath`

The input snapshot of one call is the list of concept rows fetched for the
subject: per row its id, the `prerequisiteId`s of its prerequisite
relations, its difficulty, its (nullable) `estimatedTime`, and the mastery
score of the learner's profile row when one exists (`profiles[0]`).
Display-only fields (`title`, `slug`, `subjectId`) are omitted: no control
flow reads them. -/

structure ConceptRow where
  id : String
  prerequisites : List String
  difficulty : ℚ
  estimatedTime : Option ℚ
  profileMastery : Option ℚ
deriving DecidableEq

/-- The node record `generateLearningPath` builds per concept (display-only
fields omitted).  `masteryScore` stays optional, as in the interface, even
though the builder always writes `some _`. -/
structure ConceptNode where
  id : String
  prerequisites : List String
  difficulty : ℚ
  masteryScore : Option ℚ
deriving DecidableEq

structure LearningPath where
  concepts : List ConceptNode
  totalEstimatedTime : ℚ
  gaps : List String
deriving DecidableEq

/-- Model of `calculatePriority`: `(1 - m) * 0.3` when the node carries a
mastery score (else `0.5`), minus `difficulty * 0.2`, minus
`gapCount * 0.5`. -/
def calculatePriority (node : ConceptNode) (gapCount : Nat) : ℚ :=
  let masteryBonus : ℚ :=
    match node.masteryScore with
    | some m => (1 - m) * (3 / 10)
    | none => 1 / 2
  let difficultyPenalty : ℚ := node.difficulty * (2 / 10)
  let gapPenalty : ℚ := (gapCount : ℚ) * (5 / 10)
  masteryBonus - difficultyPenalty - gapPenalty

/-- The per-concept node built in the first loop: mastery defaults to 0 when
the learner has no profile row (`profiles[0]?.masteryScore ?? 0`). -/
def toNode (c : ConceptRow) : ConceptNode :=
  { id := c.id, prerequisites := c.prerequisites, difficulty := c.difficulty,
    masteryScore := some (c.profileMastery.getD 0) }

def buildConceptMap (concepts : List ConceptRow) :
    List (String × ConceptNode) :=
  concepts.foldl (fun m c => mapSet m c.id (toNode c)) []

def buildInDegree (concepts : List ConceptRow) : List (String × Int) :=
  concepts.foldl (fun m c => mapSet m c.id (c.prerequisites.length : Int)) []

/-- The reverse-edge map: for every prerequisite relation, append the
dependent's id to the prerequisite's neighbor list (`?? []` admits keys
outside the subject's concept set). -/
def buildAdjList (concepts : List ConceptRow) :
    List (String × List String) :=
  let base := concepts.foldl (fun m c => mapSet m c.id ([] : List String)) []
  concepts.foldl (fun m c =>
    c.prerequisites.foldl (fun m2 p =>
      mapSet m2 p (((mapLookup m2 p).getD []) ++ [c.id])) m) base

/-- The `missingPrereqs` filter: a prerequisite is missing when its node is
absent from the concept map or its mastery (`?? 0`) is below the
threshold. -/
def missingPrereqs (cm : List (String × ConceptNode)) (τ : ℚ)
    (node : ConceptNode) : List String :=
  node.prerequisites.filter (fun prereqId =>
    match mapLookup cm prereqId with
    | none => true
    | some prereqNode => decide (prereqNode.masteryScore.getD 0 < τ))

/-- The seed condition `node.masteryScore !== undefined && node.masteryScore
>= masteryThreshold`. -/
def masteryDefinedAndAtLeast (ms : Option ℚ) (τ : ℚ) : Bool :=
  match ms with
  | some m => decide (τ ≤ m)
  | none => false

structure QueueItem where
  id : String
  priority : ℚ
deriving DecidableEq

structure SeedResult where
  queue : List QueueItem
  gaps : List String
deriving DecidableEq

/-- Body of the first pass over `inDegree.entries()`: a concept that has no
prerequisite edges or is itself mastered at/above the threshold is queued
when it has no missing prerequisite, and otherwise contributes its missing
prerequisite ids to `gaps`.  (`conceptMap.get(id)!` is modelled by skipping
the unreachable `none` branch.) -/
def seedStep (cm : List (String × ConceptNode)) (τ : ℚ)
    (acc : SeedResult) (kv : String × Int) : SeedResult :=
  match mapLookup cm kv.1 with
  | none => acc
  | some node =>
    if decide (kv.2 = (0 : Int)) || masteryDefinedAndAtLeast node.masteryScore τ then
      let missing := missingPrereqs cm τ node
      if missing.length = 0 then
        { acc with queue :=
            acc.queue ++ [⟨kv.1, calculatePriority node missing.length⟩] }
      else
        { acc with gaps := acc.gaps ++ missing }
    else acc

/-- The first pass over `inDegree.entries()`, seeding the frontier and the
gap list. -/
def seedQueue (cm : List (String × ConceptNode))
    (inDeg : List (String × Int)) (τ : ℚ) : SeedResult :=
  inDeg.foldl (seedStep cm τ) ⟨[], []⟩

/-- Stable insertion of an item into a priority-descending list: the item
goes after every strictly higher priority and before ties and lower ones. -/
def insertDesc (x : QueueItem) : List QueueItem → List QueueItem
  | [] => [x]
  | y :: ys => if x.priority < y.priority then y :: insertDesc x ys
               else x :: y :: ys

/-- Model of `queue.sort((a, b) => b.priority - a.priority)`: JS `sort` is
stable, and a stable sort by one key is a unique permutation, here realised
by stable insertion sort (descending priority). -/
def sortByPriorityDesc : List QueueItem → List QueueItem
  | [] => []
  | x :: xs => insertDesc x (sortByPriorityDesc xs)

theorem length_insertDesc (x : QueueItem) :
    ∀ l : List QueueItem, (insertDesc x l).length = l.length + 1 := by
  intro l
  induction l with
  | nil => rfl
  | cons y ys ih =>
    unfold insertDesc
    by_cases h : x.priority < y.priority
    · rw [if_pos h]
      simp [ih]
    · rw [if_neg h]
      simp

theorem length_sortByPriorityDesc :
    ∀ l : List QueueItem, (sortByPriorityDesc l).length = l.length := by
  intro l
  induction l with
  | nil => rfl
  | cons x xs ih => simp [sortByPriorityDesc, length_insertDesc, ih]

theorem mem_insertDesc {a x : QueueItem} : ∀ {l : List QueueItem},
    a ∈ insertDesc x l ↔ a = x ∨ a ∈ l := by
  intro l
  induction l with
  | nil => simp [insertDesc]
  | cons y ys ih =>
    unfold insertDesc
    by_cases h : x.priority < y.priority
    · rw [if_pos h]
      simp only [List.mem_cons, ih]
      tauto
    · rw [if_neg h]
      simp only [List.mem_cons]

theorem mem_sortByPriorityDesc {a : QueueItem} : ∀ {l : List QueueItem},
    a ∈ sortByPriorityDesc l ↔ a ∈ l := by
  intro l
  induction l with
  | nil => simp [sortByPriorityDesc]
  | cons x xs ih =>
    simp only [sortByPriorityDesc, mem_insertDesc, ih, List.mem_cons]

structure LoopState where
  queue : List QueueItem
  inDegree : List (String × Int)
  path : List ConceptNode
  processed : List String
deriving DecidableEq

/-- The body of `for (const neighborId of neighbors)`: decrement the
neighbor's in-degree; when it was 1 (reaching 0 now), queue the neighbor if
it has no missing prerequisite.  The `conceptMap.get(neighborId)!` non-null
assertion is modelled by skipping the (unreachable for the maps the caller
builds) `none` branch. -/
def relaxNeighbor (cm : List (String × ConceptNode)) (τ : ℚ)
    (st : LoopState) (neighborId : String) : LoopState :=
  let currentDegree : Int := (mapLookup st.inDegree neighborId).getD 0
  let st1 : LoopState :=
    { st with inDegree := mapSet st.inDegree neighborId (currentDegree - 1) }
  if currentDegree = 1 then
    match mapLookup cm neighborId with
    | none => st1
    | some neighborNode =>
      let missing := missingPrereqs cm τ neighborNode
      if missing.length = 0 then
        { st1 with queue :=
            st1.queue ++ [⟨neighborId, calculatePriority neighborNode 0⟩] }
      else st1
  else st1

theorem foldRelax_processed (cm : List (String × ConceptNode)) (τ : ℚ) :
    ∀ (l : List String) (st : LoopState),
      (l.foldl (relaxNeighbor cm τ) st).processed = st.processed := by
  intro l
  induction l with
  | nil => intro st; rfl
  | cons n ns ih =>
    intro st
    rw [List.foldl_cons, ih]
    unfold relaxNeighbor
    dsimp only
    by_cases h : ((mapLookup st.inDegree n).getD 0) = 1
    · rw [if_pos h]
      cases mapLookup cm n with
      | none => rfl
      | some node =>
        dsimp only
        by_cases h2 : (missingPrereqs cm τ node).length = 0
        · rw [if_pos h2]
        · rw [if_neg h2]
    · rw [if_neg h]

theorem mapLookup_mem_keys {α : Type} {m : List (String × α)} {k : String}
    {v : α} (h : mapLookup m k = some v) : k ∈ m.map (·.1) := by
  unfold mapLookup at h
  obtain ⟨e, he, _⟩ := Option.map_eq_some'.mp h
  have h1 : e ∈ m := List.mem_of_find?_eq_some he
  have h2 : e.1 = k := by simpa using List.find?_some he
  exact h2 ▸ List.mem_map.mpr ⟨e, h1, rfl⟩

theorem length_filter_keys_eq {α : Type} (m : List (String × α))
    (vis : List String) :
    (m.filter (fun e => decide (e.1 ∉ vis))).length =
      ((m.map (·.1)).filter (fun y => decide (y ∉ vis))).length := by
  induction m with
  | nil => rfl
  | cons e es ih =>
    by_cases h : e.1 ∈ vis
    · rw [List.map_cons, List.filter_cons_of_neg (by simpa using h),
        List.filter_cons_of_neg (by simpa using h), ih]
    · rw [List.map_cons, List.filter_cons_of_pos (by simpa using h),
        List.filter_cons_of_pos (by simpa using h), List.length_cons,
        List.length_cons, ih]

theorem length_filter_keys_lt {α : Type} {m : List (String × α)}
    {pr : List String} {k : String} (hk : k ∈ m.map (·.1)) (hnp : k ∉ pr) :
    (m.filter (fun e => decide (e.1 ∉ k :: pr))).length <
      (m.filter (fun e => decide (e.1 ∉ pr))).length := by
  rw [length_filter_keys_eq, length_filter_keys_eq]
  exact length_filter_visited_lt hnp hk

/-- The `while (queue.length > 0)` loop: sort the queue by descending
priority (stably), shift the head, skip it if already processed, otherwise
append its node to the path and relax its outgoing neighbors.  The
`conceptMap.get(id)!` non-null assertion is modelled by skipping the
(unreachable) `none` branch without marking the id processed. -/
def processQueue (cm : List (String × ConceptNode))
    (adj : List (String × List String)) (τ : ℚ) (s : LoopState) : LoopState :=
  match h : sortByPriorityDesc s.queue with
  | [] => s
  | item :: rest =>
    if hp : item.id ∈ s.processed then
      processQueue cm adj τ { s with queue := rest }
    else
      match hl : mapLookup cm item.id with
      | none => processQueue cm adj τ { s with queue := rest }
      | some node =>
        let s1 : LoopState :=
          { queue := rest, inDegree := s.inDegree,
            path := s.path ++ [node], processed := item.id :: s.processed }
        processQueue cm adj τ
          (((mapLookup adj item.id).getD []).foldl (relaxNeighbor cm τ) s1)
termination_by
  ((cm.filter (fun e => decide (e.1 ∉ s.processed))).length, s.queue.length)
decreasing_by
  · apply Prod.Lex.right
    have := length_sortByPriorityDesc s.queue
    rw [h] at this
    simp at this ⊢
    omega
  · apply Prod.Lex.right
    have := length_sortByPriorityDesc s.queue
    rw [h] at this
    simp at this ⊢
    omega
  · apply Prod.Lex.left
    rw [foldRelax_processed]
    exact length_filter_keys_lt (mapLookup_mem_keys hl) hp

theorem processQueue_nil (cm : List (String × ConceptNode))
    (adj : List (String × List String)) (τ : ℚ) (s : LoopState)
    (h : s.queue = []) : processQueue cm adj τ s = s := by
  rw [processQueue, h]
  rfl

theorem processQueue_skip (cm : List (String × ConceptNode))
    (adj : List (String × List String)) (τ : ℚ) {s : LoopState}
    {item : QueueItem} {rest : List QueueItem}
    (h : sortByPriorityDesc s.queue = item :: rest)
    (hp : item.id ∈ s.processed) :
    processQueue cm adj τ s = processQueue cm adj τ { s with queue := rest } := by
  rw [processQueue]
  split
  next heq => rw [h] at heq; cases heq
  next item' rest' heq =>
    rw [h] at heq
    injection heq with h1 h2
    subst h1
    subst h2
    rw [dif_pos hp]

theorem processQueue_found (cm : List (String × ConceptNode))
    (adj : List (String × List String)) (τ : ℚ) {s : LoopState}
    {item : QueueItem} {rest : List QueueItem} {node : ConceptNode}
    (h : sortByPriorityDesc s.queue = item :: rest)
    (hp : item.id ∉ s.processed)
    (hl : mapLookup cm item.id = some node) :
    processQueue cm adj τ s = processQueue cm adj τ
      (((mapLookup adj item.id).getD []).foldl (relaxNeighbor cm τ)
        ⟨rest, s.inDegree, s.path ++ [node], item.id :: s.processed⟩) := by
  rw [processQueue]
  split
  next heq => rw [h] at heq; cases heq
  next item' rest' heq =>
    rw [h] at heq
    injection heq with h1 h2
    subst h1
    subst h2
    rw [dif_neg hp]
    split
    next heq2 => rw [hl] at heq2; cases heq2
    next node' heq2 =>
      rw [hl] at heq2
      injection heq2 with h3
      subst h3
      rfl

theorem sortByPriorityDesc_eq_nil {q : List QueueItem}
    (h : sortByPriorityDesc q = []) : q = [] := by
  have := length_sortByPriorityDesc q
  rw [h] at this
  exact List.length_eq_zero.mp this.symm

theorem foldRelax_path (cm : List (String × ConceptNode)) (τ : ℚ) :
    ∀ (l : List String) (st : LoopState),
      (l.foldl (relaxNeighbor cm τ) st).path = st.path := by
  intro l
  induction l with
  | nil => intro st; rfl
  | cons n ns ih =>
    intro st
    rw [List.foldl_cons, ih]
    unfold relaxNeighbor
    dsimp only
    by_cases h : ((mapLookup st.inDegree n).getD 0) = 1
    · rw [if_pos h]
      cases mapLookup cm n with
      | none => rfl
      | some node =>
        dsimp only
        by_cases h2 : (missingPrereqs cm τ node).length = 0
        · rw [if_pos h2]
        · rw [if_neg h2]
    · rw [if_neg h]

theorem relaxNeighbor_queue (cm : List (String × ConceptNode)) (τ : ℚ)
    (st : LoopState) (n : String) :
    ∃ ext : List QueueItem,
      (relaxNeighbor cm τ st n).queue = st.queue ++ ext ∧
      ∀ it ∈ ext, ∃ node, mapLookup cm it.id = some node ∧
        (missingPrereqs cm τ node).length = 0 := by
  unfold relaxNeighbor
  dsimp only
  by_cases h : ((mapLookup st.inDegree n).getD 0) = 1
  · rw [if_pos h]
    cases hl : mapLookup cm n with
    | none => exact ⟨[], by simp⟩
    | some node =>
      dsimp only
      by_cases h2 : (missingPrereqs cm τ node).length = 0
      · rw [if_pos h2]
        exact ⟨[⟨n, calculatePriority node 0⟩], rfl,
          fun it hit => by
            rcases List.mem_singleton.mp hit with rfl
            exact ⟨node, hl, h2⟩⟩
      · rw [if_neg h2]
        exact ⟨[], by simp⟩
  · rw [if_neg h]
    exact ⟨[], by simp⟩

theorem foldRelax_queue (cm : List (String × ConceptNode)) (τ : ℚ) :
    ∀ (l : List String) (st : LoopState),
      ∃ ext : List QueueItem,
        (l.foldl (relaxNeighbor cm τ) st).queue = st.queue ++ ext ∧
        ∀ it ∈ ext, ∃ node, mapLookup cm it.id = some node ∧
          (missingPrereqs cm τ node).length = 0 := by
  intro l
  induction l with
  | nil => intro st; exact ⟨[], by simp⟩
  | cons n ns ih =>
    intro st
    rw [List.foldl_cons]
    obtain ⟨e1, he1, hok1⟩ := relaxNeighbor_queue cm τ st n
    obtain ⟨e2, he2, hok2⟩ := ih (relaxNeighbor cm τ st n)
    refine ⟨e1 ++ e2, ?_, ?_⟩
    · rw [he2, he1, List.append_assoc]
    · intro it hit
      rcases List.mem_append.mp hit with h | h
      · exact hok1 it h
      · exact hok2 it h

theorem mapLookup_some_mem {α : Type} {m : List (String × α)} {k : String}
    {v : α} (h : mapLookup m k = some v) : (k, v) ∈ m := by
  unfold mapLookup at h
  obtain ⟨e, he, hev⟩ := Option.map_eq_some'.mp h
  have h1 : e ∈ m := List.mem_of_find?_eq_some he
  have h2 : e.1 = k := by simpa using List.find?_some he
  have : e = (k, v) := by
    cases e
    simp only at h2 hev
    rw [h2, hev]
  exact this ▸ h1

/-- Items a well-formed run keeps in the queue: the looked-up node exists and
has no missing prerequisite (both pushing sites check this). -/
def QueueOk (cm : List (String × ConceptNode)) (τ : ℚ)
    (q : List QueueItem) : Prop :=
  ∀ it ∈ q, ∃ node, mapLookup cm it.id = some node ∧
    (missingPrereqs cm τ node).length = 0

/-- Every node in the path is the concept-map value at its own id and has no
missing prerequisite. -/
def PathOk (cm : List (String × ConceptNode)) (τ : ℚ)
    (l : List ConceptNode) : Prop :=
  ∀ node ∈ l, mapLookup cm node.id = some node ∧
    (missingPrereqs cm τ node).length = 0

/-- Loop invariants of `processQueue`: the path stays made of
missing-prerequisite-free nodes, the processed set mirrors the path's id
sequence without duplicates, processing only grows, and every queued item
ends up processed. -/
theorem processQueue_master (cm : List (String × ConceptNode))
    (adj : List (String × List String)) (τ : ℚ)
    (hkc : ∀ e ∈ cm, e.2.id = e.1) :
    ∀ s : LoopState, QueueOk cm τ s.queue → PathOk cm τ s.path →
      s.processed.reverse = s.path.map (·.id) → s.processed.Nodup →
      PathOk cm τ (processQueue cm adj τ s).path ∧
      (processQueue cm adj τ s).processed.reverse =
        (processQueue cm adj τ s).path.map (·.id) ∧
      (processQueue cm adj τ s).processed.Nodup ∧
      (∀ x ∈ s.processed, x ∈ (processQueue cm adj τ s).processed) ∧
      (∀ it ∈ s.queue, it.id ∈ (processQueue cm adj τ s).processed) := by
  intro s
  induction s using processQueue.induct cm adj τ with
  | case1 s hsort =>
    intro hq hpath hrev hnd
    have hqe : s.queue = [] := sortByPriorityDesc_eq_nil hsort
    rw [processQueue_nil cm adj τ s hqe]
    exact ⟨hpath, hrev, hnd, fun x hx => hx, fun it hit => by
      rw [hqe] at hit; cases hit⟩
  | case2 s item rest hsort hp ih =>
    intro hq hpath hrev hnd
    rw [processQueue_skip cm adj τ hsort hp]
    have hrest : ∀ it ∈ rest, it ∈ s.queue := fun it hit =>
      mem_sortByPriorityDesc.mp (hsort ▸ List.mem_cons_of_mem _ hit)
    obtain ⟨c1, c2, c3, c4, c5⟩ := ih
      (fun it hit => hq it (hrest it hit)) hpath hrev hnd
    refine ⟨c1, c2, c3, c4, fun it hit => ?_⟩
    have : it ∈ item :: rest := hsort ▸ mem_sortByPriorityDesc.mpr hit
    rcases List.mem_cons.mp this with rfl | h
    · exact c4 _ hp
    · exact c5 it h
  | case3 s item rest hsort hp hl ih =>
    intro hq hpath hrev hnd
    have hmem : item ∈ s.queue :=
      mem_sortByPriorityDesc.mp (hsort ▸ List.mem_cons_self _ _)
    obtain ⟨node, hnode, _⟩ := hq item hmem
    rw [hnode] at hl
    cases hl
  | case4 s item rest hsort hp node hl s1x ih =>
    intro hq hpath hrev hnd
    rw [processQueue_found cm adj τ hsort hp hl]
    have hitem : item ∈ s.queue :=
      mem_sortByPriorityDesc.mp (hsort ▸ List.mem_cons_self _ _)
    have hrest : ∀ it ∈ rest, it ∈ s.queue := fun it hit =>
      mem_sortByPriorityDesc.mp (hsort ▸ List.mem_cons_of_mem _ hit)
    have hnid : node.id = item.id := hkc (item.id, node) (mapLookup_some_mem hl)
    have hmiss : (missingPrereqs cm τ node).length = 0 := by
      obtain ⟨n', hn', hm'⟩ := hq item hitem
      rw [hl] at hn'
      cases hn'
      exact hm'
    set s1 : LoopState :=
      ⟨rest, s.inDegree, s.path ++ [node], item.id :: s.processed⟩ with hs1
    set s2 := ((mapLookup adj item.id).getD []).foldl (relaxNeighbor cm τ) s1
      with hs2
    obtain ⟨ext, hqe, hok⟩ := foldRelax_queue cm τ
      ((mapLookup adj item.id).getD []) s1
    have hq2 : QueueOk cm τ s2.queue := by
      rw [← hs2] at hqe
      rw [hqe]
      intro it hit
      rcases List.mem_append.mp hit with h | h
      · exact hq it (hrest it h)
      · exact hok it h
    have hpath2 : PathOk cm τ s2.path := by
      rw [hs2, foldRelax_path]
      intro n hn
      rcases List.mem_append.mp hn with h | h
      · exact hpath n h
      · rcases List.mem_singleton.mp h with rfl
        exact ⟨hnid ▸ hl, hmiss⟩
    have hproc2 : s2.processed = item.id :: s.processed := by
      rw [hs2, foldRelax_processed]
    have hrev2 : s2.processed.reverse = s2.path.map (·.id) := by
      rw [hproc2, hs2, foldRelax_path]
      simp only [List.reverse_cons, hrev, hs1, List.map_append, List.map_cons,
        List.map_nil, hnid]
    have hnd2 : s2.processed.Nodup := by
      rw [hproc2]
      exact List.nodup_cons.mpr ⟨hp, hnd⟩
    obtain ⟨c1, c2, c3, c4, c5⟩ := ih hq2 hpath2 hrev2 hnd2
    refine ⟨c1, c2, c3, ?_, ?_⟩
    · intro x hx
      exact c4 x (by rw [hproc2]; exact List.mem_cons_of_mem _ hx)
    · intro it hit
      have : it ∈ item :: rest := hsort ▸ mem_sortByPriorityDesc.mpr hit
      rcases List.mem_cons.mp this with rfl | h
      · exact c4 _ (by rw [hproc2]; exact List.mem_cons_self _ _)
      · refine c5 it ?_
        rw [← hs2] at hqe
        rw [hqe]
        exact List.mem_append.mpr (Or.inl h)

theorem mapLookup_eq_of_mem_nodup {α : Type} :
    ∀ {l : List (String × α)} {k : String} {v : α},
      (k, v) ∈ l → (l.map (·.1)).Nodup → mapLookup l k = some v := by
  intro l
  induction l with
  | nil => intro k v h _; cases h
  | cons e es ih =>
    intro k v h hn
    obtain ⟨a, w⟩ := e
    rw [mapLookup_cons]
    rcases List.mem_cons.mp h with h1 | h1
    · injection h1 with h2 h3
      rw [if_pos h2.symm, h3]
    · by_cases hak : a = k
      · exfalso
        subst hak
        have : a ∈ es.map (·.1) := List.mem_map.mpr ⟨(a, v), h1, rfl⟩
        exact (List.nodup_cons.mp hn).1 this
      · rw [if_neg hak]
        exact ih h1 (List.nodup_cons.mp hn).2

theorem mapSet_fresh {α : Type} {m : List (String × α)} {k : String} (v : α)
    (h : k ∉ m.map (·.1)) : mapSet m k v = m ++ [(k, v)] := by
  unfold mapSet
  rw [if_neg]
  intro hc
  obtain ⟨e, he, hek⟩ := List.any_eq_true.mp hc
  exact h (List.mem_map.mpr ⟨e, he, by simpa using hek⟩)

theorem foldl_mapSet_eq {α : Type} (f : ConceptRow → α) :
    ∀ (concepts : List ConceptRow) (init : List (String × α)),
      (concepts.map ConceptRow.id).Nodup →
      (∀ c ∈ concepts, c.id ∉ init.map (·.1)) →
      concepts.foldl (fun m c => mapSet m c.id (f c)) init =
        init ++ concepts.map (fun c => (c.id, f c)) := by
  intro concepts
  induction concepts with
  | nil => intro init _ _; simp
  | cons c cs ih =>
    intro init hn hfresh
    rw [List.foldl_cons, mapSet_fresh (f c) (hfresh c (List.mem_cons_self _ _))]
    rw [ih (init ++ [(c.id, f c)]) (List.nodup_cons.mp (by simpa using hn)).2]
    · simp
    · intro c' hc'
      rw [List.map_append, List.mem_append]
      rintro (h | h)
      · exact hfresh c' (List.mem_cons_of_mem _ hc') h
      · simp only [List.map_cons, List.map_nil, List.mem_singleton] at h
        have : c.id ∉ cs.map ConceptRow.id :=
          (List.nodup_cons.mp (by simpa using hn)).1
        exact this (h ▸ List.mem_map.mpr ⟨c', hc', rfl⟩)

theorem buildConceptMap_eq {concepts : List ConceptRow}
    (hn : (concepts.map ConceptRow.id).Nodup) :
    buildConceptMap concepts =
      concepts.map (fun c => (c.id, toNode c)) := by
  unfold buildConceptMap
  rw [foldl_mapSet_eq toNode concepts [] hn (by simp)]
  simp

theorem buildInDegree_eq {concepts : List ConceptRow}
    (hn : (concepts.map ConceptRow.id).Nodup) :
    buildInDegree concepts =
      concepts.map (fun c => (c.id, (c.prerequisites.length : Int))) := by
  unfold buildInDegree
  rw [foldl_mapSet_eq (fun c => (c.prerequisites.length : Int)) concepts []
    hn (by simp)]
  simp

theorem mapLookup_build_self {concepts : List ConceptRow}
    (hn : (concepts.map ConceptRow.id).Nodup) {c : ConceptRow}
    (hc : c ∈ concepts) :
    mapLookup (buildConceptMap concepts) c.id = some (toNode c) := by
  rw [buildConceptMap_eq hn]
  have hmem : (c.id, toNode c) ∈ concepts.map (fun c => (c.id, toNode c)) :=
    List.mem_map.mpr ⟨c, hc, rfl⟩
  apply mapLookup_eq_of_mem_nodup hmem
  have : (concepts.map (fun c => (c.id, toNode c))).map (·.1) =
      concepts.map ConceptRow.id := by
    rw [List.map_map]; rfl
  rw [this]
  exact hn

theorem mapLookup_build_inv {concepts : List ConceptRow}
    (hn : (concepts.map ConceptRow.id).Nodup) {k : String} {v : ConceptNode}
    (h : mapLookup (buildConceptMap concepts) k = some v) :
    ∃ c ∈ concepts, c.id = k ∧ v = toNode c := by
  rw [buildConceptMap_eq hn] at h
  have := mapLookup_some_mem h
  obtain ⟨c, hc, hpair⟩ := List.mem_map.mp this
  injection hpair with h1 h2
  exact ⟨c, hc, h1, h2.symm⟩

theorem buildConceptMap_keyCons {concepts : List ConceptRow}
    (hn : (concepts.map ConceptRow.id).Nodup) :
    ∀ e ∈ buildConceptMap concepts, e.2.id = e.1 := by
  intro e he
  rw [buildConceptMap_eq hn] at he
  obtain ⟨c, _, hpair⟩ := List.mem_map.mp he
  rw [← hpair]
  rfl

theorem seedStep_queue (cm : List (String × ConceptNode)) (τ : ℚ)
    (acc : SeedResult) (kv : String × Int) :
    ((∃ ext, (seedStep cm τ acc kv).queue = acc.queue ++ ext) ∧
      (seedStep cm τ acc kv).gaps = acc.gaps) ∨
    ((seedStep cm τ acc kv).queue = acc.queue ∧
      ∃ gext, (seedStep cm τ acc kv).gaps = acc.gaps ++ gext) := by
  unfold seedStep
  cases mapLookup cm kv.1 with
  | none => exact Or.inl ⟨⟨[], by simp⟩, rfl⟩
  | some node =>
    dsimp only
    by_cases h1 : (decide (kv.2 = (0 : Int)) ||
        masteryDefinedAndAtLeast node.masteryScore τ) = true
    · rw [if_pos h1]
      by_cases h2 : (missingPrereqs cm τ node).length = 0
      · rw [if_pos h2]
        exact Or.inl ⟨⟨_, rfl⟩, rfl⟩
      · rw [if_neg h2]
        exact Or.inr ⟨rfl, _, rfl⟩
    · rw [if_neg h1]
      exact Or.inl ⟨⟨[], by simp⟩, rfl⟩

/-- Both seed accumulators only grow along the fold. -/
theorem seedFold_mono (cm : List (String × ConceptNode)) (τ : ℚ) :
    ∀ (inDeg : List (String × Int)) (acc : SeedResult),
      (∀ it ∈ acc.queue, it ∈ (inDeg.foldl (seedStep cm τ) acc).queue) ∧
      (∀ x ∈ acc.gaps, x ∈ (inDeg.foldl (seedStep cm τ) acc).gaps) := by
  intro inDeg
  induction inDeg with
  | nil => intro acc; exact ⟨fun _ h => h, fun _ h => h⟩
  | cons kv kvs ih =>
    intro acc
    rw [List.foldl_cons]
    have hstep := seedStep_queue cm τ acc kv
    obtain ⟨hq2, hg2⟩ := ih (seedStep cm τ acc kv)
    constructor
    · intro it hit
      apply hq2
      rcases hstep with ⟨⟨ext, hq⟩, _⟩ | ⟨hq, _⟩ <;> rw [hq]
      · exact List.mem_append.mpr (Or.inl hit)
      · exact hit
    · intro x hx
      apply hg2
      rcases hstep with ⟨_, hg⟩ | ⟨_, gext, hg⟩ <;> rw [hg]
      · exact hx
      · exact List.mem_append.mpr (Or.inl hx)

/-- Soundness of the seed queue: every queued item was queued for an
in-degree entry whose node exists and has no missing prerequisite. -/
theorem seedFold_queue_sound (cm : List (String × ConceptNode)) (τ : ℚ) :
    ∀ (inDeg : List (String × Int)) (acc : SeedResult) (it : QueueItem),
      it ∈ (inDeg.foldl (seedStep cm τ) acc).queue →
      it ∈ acc.queue ∨ ∃ node, mapLookup cm it.id = some node ∧
        (missingPrereqs cm τ node).length = 0 := by
  intro inDeg
  induction inDeg with
  | nil => intro acc it h; exact Or.inl h
  | cons kv kvs ih =>
    intro acc it h
    rw [List.foldl_cons] at h
    rcases ih (seedStep cm τ acc kv) it h with h1 | h1
    · unfold seedStep at h1
      revert h1
      cases hl : mapLookup cm kv.1 with
      | none => exact fun h1 => Or.inl h1
      | some node =>
        dsimp only
        by_cases hc : (decide (kv.2 = (0 : Int)) ||
            masteryDefinedAndAtLeast node.masteryScore τ) = true
        · rw [if_pos hc]
          by_cases h2 : (missingPrereqs cm τ node).length = 0
          · rw [if_pos h2]
            intro h1
            rcases List.mem_append.mp h1 with h3 | h3
            · exact Or.inl h3
            · rcases List.mem_singleton.mp h3 with rfl
              exact Or.inr ⟨node, hl, h2⟩
          · rw [if_neg h2]
            exact fun h1 => Or.inl h1
        · rw [if_neg hc]
          exact fun h1 => Or.inl h1
    · exact Or.inr h1

/-- Completeness of the seed queue: an eligible in-degree entry with no
missing prerequisite puts its id into the queue. -/
theorem seedFold_queue_complete (cm : List (String × ConceptNode)) (τ : ℚ) :
    ∀ (inDeg : List (String × Int)) (acc : SeedResult) (kv : String × Int),
      kv ∈ inDeg →
      ∀ node, mapLookup cm kv.1 = some node →
      (decide (kv.2 = (0 : Int)) ||
        masteryDefinedAndAtLeast node.masteryScore τ) = true →
      (missingPrereqs cm τ node).length = 0 →
      ∃ it ∈ (inDeg.foldl (seedStep cm τ) acc).queue, it.id = kv.1 := by
  intro inDeg
  induction inDeg with
  | nil => intro acc kv h; cases h
  | cons kv0 kvs ih =>
    intro acc kv hkv node hl hc hm
    rw [List.foldl_cons]
    rcases List.mem_cons.mp hkv with rfl | h
    · have hq : ∃ it ∈ (seedStep cm τ acc kv).queue, it.id = kv.1 := by
        unfold seedStep
        rw [hl]
        dsimp only
        rw [if_pos hc, if_pos hm]
        exact ⟨⟨kv.1, calculatePriority node (missingPrereqs cm τ node).length⟩,
          List.mem_append.mpr (Or.inr (List.mem_singleton.mpr rfl)), rfl⟩
      obtain ⟨it, hit, hid⟩ := hq
      exact ⟨it, (seedFold_mono cm τ kvs (seedStep cm τ acc kv)).1 it hit, hid⟩
    · exact ih (seedStep cm τ acc kv0) kv h node hl hc hm

/-- Soundness of the seed gaps: every gap id is a missing prerequisite of
some eligible in-degree entry's node. -/
theorem seedFold_gaps_sound (cm : List (String × ConceptNode)) (τ : ℚ) :
    ∀ (inDeg : List (String × Int)) (acc : SeedResult) (x : String),
      x ∈ (inDeg.foldl (seedStep cm τ) acc).gaps →
      x ∈ acc.gaps ∨ ∃ kv ∈ inDeg, ∃ node, mapLookup cm kv.1 = some node ∧
        (decide (kv.2 = (0 : Int)) ||
          masteryDefinedAndAtLeast node.masteryScore τ) = true ∧
        x ∈ missingPrereqs cm τ node := by
  intro inDeg
  induction inDeg with
  | nil => intro acc x h; exact Or.inl h
  | cons kv kvs ih =>
    intro acc x h
    rw [List.foldl_cons] at h
    rcases ih (seedStep cm τ acc kv) x h with h1 | h1
    · unfold seedStep at h1
      revert h1
      cases hl : mapLookup cm kv.1 with
      | none => exact fun h1 => Or.inl h1
      | some node =>
        dsimp only
        by_cases hc : (decide (kv.2 = (0 : Int)) ||
            masteryDefinedAndAtLeast node.masteryScore τ) = true
        · rw [if_pos hc]
          by_cases h2 : (missingPrereqs cm τ node).length = 0
          · rw [if_pos h2]
            exact fun h1 => Or.inl h1
          · rw [if_neg h2]
            intro h1
            rcases List.mem_append.mp h1 with h3 | h3
            · exact Or.inl h3
            · exact Or.inr ⟨kv, List.mem_cons_self _ _, node, hl, hc, h3⟩
        · rw [if_neg hc]
          exact fun h1 => Or.inl h1
    · obtain ⟨kv', hkv', rest⟩ := h1
      exact Or.inr ⟨kv', List.mem_cons_of_mem _ hkv', rest⟩

/-- Completeness of the seed gaps: an eligible entry whose node has missing
prerequisites contributes all of them to the gap list. -/
theorem seedFold_gaps_complete (cm : List (String × ConceptNode)) (τ : ℚ) :
    ∀ (inDeg : List (String × Int)) (acc : SeedResult) (kv : String × Int),
      kv ∈ inDeg →
      ∀ node, mapLookup cm kv.1 = some node →
      (decide (kv.2 = (0 : Int)) ||
        masteryDefinedAndAtLeast node.masteryScore τ) = true →
      (missingPrereqs cm τ node).length ≠ 0 →
      ∀ x ∈ missingPrereqs cm τ node,
        x ∈ (inDeg.foldl (seedStep cm τ) acc).gaps := by
  intro inDeg
  induction inDeg with
  | nil => intro acc kv h; cases h
  | cons kv0 kvs ih =>
    intro acc kv hkv node hl hc hm x hx
    rw [List.foldl_cons]
    rcases List.mem_cons.mp hkv with rfl | h
    · have hg : x ∈ (seedStep cm τ acc kv).gaps := by
        unfold seedStep
        rw [hl]
        dsimp only
        rw [if_pos hc, if_neg hm]
        exact List.mem_append.mpr (Or.inr hx)
      exact (seedFold_mono cm τ kvs (seedStep cm τ acc kv)).2 x hg
    · exact ih (seedStep cm τ acc kv0) kv h node hl hc hm x hx

/-- The `?? 30` default for a concept's estimated time in the final sum. -/
def estTimeOf (concepts : List ConceptRow) (id : String) : ℚ :=
  ((concepts.find? (fun c => decide (c.id = id))).bind
    (·.estimatedTime)).getD 30

/-- Model of `generateLearningPath`, as a pure function of the fetched
snapshot (the concept rows of the subject with the learner's mastery
attached) and the mastery threshold. -/
def generateLearningPath (concepts : List ConceptRow)
    (masteryThreshold : ℚ) : LearningPath :=
  let conceptMap := buildConceptMap concepts
  let inDegree := buildInDegree concepts
  let adjList := buildAdjList concepts
  let seeded := seedQueue conceptMap inDegree masteryThreshold
  let final := processQueue conceptMap adjList masteryThreshold
    { queue := seeded.queue, inDegree := inDegree, path := [], processed := [] }
  { concepts := final.path
    totalEstimatedTime :=
      final.path.foldl (fun sum node => sum + estTimeOf concepts node.id) 0
    gaps := dedupFirst seeded.gaps }

theorem gLP_concepts (concepts : List ConceptRow) (τ : ℚ) :
    (generateLearningPath concepts τ).concepts =
      (processQueue (buildConceptMap concepts) (buildAdjList concepts) τ
        ⟨(seedQueue (buildConceptMap concepts) (buildInDegree concepts)
            τ).queue,
          buildInDegree concepts, [], []⟩).path := rfl

theorem gLP_gaps (concepts : List ConceptRow) (τ : ℚ) :
    (generateLearningPath concepts τ).gaps =
      dedupFirst (seedQueue (buildConceptMap concepts)
        (buildInDegree concepts) τ).gaps := rfl

/-- The run-level facts the claims need: the final path is made of
missing-prerequisite-free concept-map values, contains no duplicate id, and
contains every id the seed pass queued. -/
theorem gLP_master (concepts : List ConceptRow) (τ : ℚ)
    (hn : (concepts.map ConceptRow.id).Nodup) :
    PathOk (buildConceptMap concepts) τ
      (generateLearningPath concepts τ).concepts ∧
    ((generateLearningPath concepts τ).concepts.map (fun n => n.id)).Nodup ∧
    (∀ it ∈ (seedQueue (buildConceptMap concepts) (buildInDegree concepts)
        τ).queue,
      it.id ∈ (generateLearningPath concepts τ).concepts.map
        (fun n => n.id)) := by
  have hq0 : QueueOk (buildConceptMap concepts) τ
      (seedQueue (buildConceptMap concepts) (buildInDegree concepts)
        τ).queue := by
    intro it hit
    rcases seedFold_queue_sound (buildConceptMap concepts) τ
      (buildInDegree concepts) ⟨[], []⟩ it hit with h | h
    · cases h
    · exact h
  have hpath0 : PathOk (buildConceptMap concepts) τ
      ([] : List ConceptNode) := by
    intro n h
    cases h
  obtain ⟨c1, c2, c3, c4, c5⟩ :=
    processQueue_master (buildConceptMap concepts) (buildAdjList concepts) τ
      (buildConceptMap_keyCons hn)
      ⟨(seedQueue (buildConceptMap concepts) (buildInDegree concepts)
          τ).queue,
        buildInDegree concepts, [], []⟩
      hq0 hpath0 rfl List.nodup_nil
  refine ⟨c1, ?_, ?_⟩
  · rw [gLP_concepts, ← c2]
    exact List.nodup_reverse.mpr c3
  · intro it hit
    rw [gLP_concepts, ← c2]
    exact List.mem_reverse.mpr (c5 it hit)

/-- A concept with no prerequisite edges is always seeded, and the loop
drains the whole queue, so its id is in the final path. -/
theorem zeroPrereq_mem_path (concepts : List ConceptRow) (τ : ℚ)
    (hn : (concepts.map ConceptRow.id).Nodup) {c : ConceptRow}
    (hc : c ∈ concepts) (hp : c.prerequisites = []) :
    c.id ∈ (generateLearningPath concepts τ).concepts.map (fun n => n.id) := by
  have hin : (c.id, (0 : Int)) ∈ buildInDegree concepts := by
    rw [buildInDegree_eq hn]
    refine List.mem_map.mpr ⟨c, hc, ?_⟩
    rw [hp]
    rfl
  have hmiss : (missingPrereqs (buildConceptMap concepts) τ
      (toNode c)).length = 0 := by
    unfold missingPrereqs toNode
    rw [hp]
    rfl
  obtain ⟨it, hit, hid⟩ := seedFold_queue_complete (buildConceptMap concepts)
    τ (buildInDegree concepts) ⟨[], []⟩ (c.id, (0 : Int)) hin (toNode c)
    (mapLookup_build_self hn hc) (by simp) hmiss
  have := (gLP_master concepts τ hn).2.2 it hit
  rwa [hid] at this

/-- The node of a prerequisite-free concept itself appears in the final
path. -/
theorem zeroPrereq_node_mem_path (concepts : List ConceptRow) (τ : ℚ)
    (hn : (concepts.map ConceptRow.id).Nodup) {c : ConceptRow}
    (hc : c ∈ concepts) (hp : c.prerequisites = []) :
    toNode c ∈ (generateLearningPath concepts τ).concepts := by
  obtain ⟨node, hnode, hid⟩ :=
    List.mem_map.mp (zeroPrereq_mem_path concepts τ hn hc hp)
  have hlook := ((gLP_master concepts τ hn).1 node hnode).1
  rw [hid] at hlook
  rw [mapLookup_build_self hn hc] at hlook
  injection hlook with h
  rwa [← h] at hnode

/-- A concept whose node has missing prerequisites never enters the path:
both queueing sites require an empty missing-prerequisite list. -/
theorem blocked_not_in_path (concepts : List ConceptRow) (τ : ℚ)
    (hn : (concepts.map ConceptRow.id).Nodup) {c : ConceptRow}
    (hc : c ∈ concepts)
    (hm : (missingPrereqs (buildConceptMap concepts) τ
      (toNode c)).length ≠ 0) :
    c.id ∉ (generateLearningPath concepts τ).concepts.map (fun n => n.id) := by
  intro hmem
  obtain ⟨node, hnode, hid⟩ := List.mem_map.mp hmem
  obtain ⟨hlook, hmiss⟩ := (gLP_master concepts τ hn).1 node hnode
  rw [hid] at hlook
  rw [mapLookup_build_self hn hc] at hlook
  injection hlook with h
  rw [← h] at hmiss
  exact hm hmiss

/-- C1: for any concept/edge set (acyclicity is not even needed) and any
mastery snapshot, every prerequisite of a concept in the returned ordered
sequence is absent from the subject's concept set, or mastered at/above the
threshold, or appears earlier in the sequence.  (The code in fact
establishes the middle disjunct for every prerequisite: both queueing sites
demand an empty missing-prerequisite list.) -/
theorem C1_topological_validity (concepts : List ConceptRow) (τ : ℚ)
    (hn : (concepts.map ConceptRow.id).Nodup) (c : ConceptNode)
    (hc : c ∈ (generateLearningPath concepts τ).concepts) :
    ∀ p ∈ c.prerequisites,
      p ∉ concepts.map ConceptRow.id ∨
      (∃ row ∈ concepts, row.id = p ∧ τ ≤ row.profileMastery.getD 0) ∨
      (∃ i j : Nat, i < j ∧
        ((generateLearningPath concepts τ).concepts.map
          (fun n => n.id)).get? i = some p ∧
        ((generateLearningPath concepts τ).concepts.map
          (fun n => n.id)).get? j = some c.id) := by
  intro p hp
  obtain ⟨hlook, hmiss⟩ := (gLP_master concepts τ hn).1 c hc
  have hnotmiss : p ∉ missingPrereqs (buildConceptMap concepts) τ c := by
    intro hmem
    rw [List.length_eq_zero.mp hmiss] at hmem
    cases hmem
  unfold missingPrereqs at hnotmiss
  have hpred : ¬ ((match mapLookup (buildConceptMap concepts) p with
      | none => true
      | some prereqNode =>
        decide (prereqNode.masteryScore.getD 0 < τ)) = true) :=
    fun hb => hnotmiss (List.mem_filter.mpr ⟨hp, hb⟩)
  cases hl : mapLookup (buildConceptMap concepts) p with
  | none =>
    rw [hl] at hpred
    exact (hpred rfl).elim
  | some pn =>
    rw [hl] at hpred
    have hτ : τ ≤ pn.masteryScore.getD 0 := le_of_not_lt (by simpa using hpred)
    obtain ⟨row, hrow, hid, hnode⟩ := mapLookup_build_inv hn hl
    refine Or.inr (Or.inl ⟨row, hrow, hid, ?_⟩)
    rw [hnode] at hτ
    simpa [toNode] using hτ

/-- Witness for C1: a single mastered prerequisite-free concept. -/
theorem C1_witness :
    (([⟨"A", [], 0, none, some 1⟩] : List ConceptRow).map
      ConceptRow.id).Nodup ∧
    (⟨"A", [], 0, some 1⟩ : ConceptNode) ∈
      (generateLearningPath [⟨"A", [], 0, none, some 1⟩] 1).concepts ∧
    (∀ p ∈ (⟨"A", [], 0, some 1⟩ : ConceptNode).prerequisites,
      p ∉ ([⟨"A", [], 0, none, some 1⟩] : List ConceptRow).map
        ConceptRow.id ∨
      (∃ row ∈ ([⟨"A", [], 0, none, some 1⟩] : List ConceptRow),
        row.id = p ∧ (1 : ℚ) ≤ row.profileMastery.getD 0) ∨
      (∃ i j : Nat, i < j ∧
        ((generateLearningPath [⟨"A", [], 0, none, some 1⟩] 1).concepts.map
          (fun n => n.id)).get? i = some p ∧
        ((generateLearningPath [⟨"A", [], 0, none, some 1⟩] 1).concepts.map
          (fun n => n.id)).get? j =
            some (⟨"A", [], 0, some 1⟩ : ConceptNode).id)) := by
  have hn : (([⟨"A", [], 0, none, some 1⟩] : List ConceptRow).map
      ConceptRow.id).Nodup := by decide
  have hc : (⟨"A", [], 0, some 1⟩ : ConceptNode) ∈
      (generateLearningPath [⟨"A", [], 0, none, some 1⟩] 1).concepts :=
    zeroPrereq_node_mem_path [⟨"A", [], 0, none, some 1⟩] 1 (by decide)
      (List.mem_singleton.mpr rfl) rfl
  exact ⟨hn, hc, C1_topological_validity _ 1 hn _ hc⟩

/-- C10: a concept with zero prerequisites is always seeded (its in-degree
entry is 0 and its missing-prerequisite list is empty) and the loop drains
the queue, so it appears in the ordered sequence exactly once, whatever the
learner's own mastery of it — mastered concepts are not filtered out. -/
theorem C10_zero_prereq_scheduled (concepts : List ConceptRow) (τ : ℚ)
    (hn : (concepts.map ConceptRow.id).Nodup) (c : ConceptRow)
    (hc : c ∈ concepts) (hp : c.prerequisites = []) :
    ((generateLearningPath concepts τ).concepts.map
      (fun n => n.id)).count c.id = 1 :=
  List.count_eq_one_of_mem (gLP_master concepts τ hn).2.1
    (zeroPrereq_mem_path concepts τ hn hc hp)

/-- Witness for C10: a prerequisite-free concept already mastered at the
threshold still appears exactly once. -/
theorem C10_witness :
    (([⟨"M", [], 0, none, some 1⟩] : List ConceptRow).map
      ConceptRow.id).Nodup ∧
    (⟨"M", [], 0, none, some 1⟩ : ConceptRow) ∈
      ([⟨"M", [], 0, none, some 1⟩] : List ConceptRow) ∧
    (⟨"M", [], 0, none, some 1⟩ : ConceptRow).prerequisites = [] ∧
    ((generateLearningPath [⟨"M", [], 0, none, some 1⟩] 1).concepts.map
      (fun n => n.id)).count "M" = 1 :=
  ⟨by decide, List.mem_singleton.mpr rfl, rfl,
    C10_zero_prereq_scheduled [⟨"M", [], 0, none, some 1⟩] 1 (by decide) _
      (List.mem_singleton.mpr rfl) rfl⟩

/-- C5 counterexample: with the out-of-range threshold τ = 2 the call is not
rejected — no threshold validation exists anywhere in
`generateLearningPath` — and a normal result is produced: the
prerequisite-free concept is scheduled and the gap set is computed
(empty). -/
theorem C5_counterexample :
    "A" ∈ (generateLearningPath [⟨"A", [], 0, none, none⟩]
      2).concepts.map (fun n => n.id) ∧
    (generateLearningPath [⟨"A", [], 0, none, none⟩] 2).gaps = [] :=
  ⟨zeroPrereq_mem_path [⟨"A", [], 0, none, none⟩] 2 (by decide)
    (List.mem_singleton.mpr rfl) rfl, by decide⟩

/-- C5 amended: `generateLearningPath` performs no validation of the
threshold; for τ outside [0, 1] it runs the ordinary algorithm and returns a
normal `LearningPath` — for instance, every prerequisite-free concept is
still scheduled. -/
theorem C5_no_threshold_validation (concepts : List ConceptRow) (τ : ℚ)
    (hτ : τ < 0 ∨ 1 < τ) (hn : (concepts.map ConceptRow.id).Nodup)
    (c : ConceptRow) (hc : c ∈ concepts) (hp : c.prerequisites = []) :
    c.id ∈ (generateLearningPath concepts τ).concepts.map (fun n => n.id) :=
  zeroPrereq_mem_path concepts τ hn hc hp

/-- Witness for C5's amended statement at τ = 2. -/
theorem C5_witness :
    ((2 : ℚ) < 0 ∨ (1 : ℚ) < 2) ∧
    (([⟨"A", [], 0, none, none⟩] : List ConceptRow).map
      ConceptRow.id).Nodup ∧
    (⟨"A", [], 0, none, none⟩ : ConceptRow) ∈
      ([⟨"A", [], 0, none, none⟩] : List ConceptRow) ∧
    (⟨"A", [], 0, none, none⟩ : ConceptRow).prerequisites = [] ∧
    "A" ∈ (generateLearningPath [⟨"A", [], 0, none, none⟩] 2).concepts.map
      (fun n => n.id) :=
  ⟨Or.inr (by decide), by decide, List.mem_singleton.mpr rfl, rfl,
    C5_no_threshold_validation [⟨"A", [], 0, none, none⟩] 2
      (Or.inr (by decide)) (by decide) _ (List.mem_singleton.mpr rfl) rfl⟩

/-- C2 counterexample: subject `{A, B}` with `B` requiring `A`, learner
mastery all zero, τ = 1.  `B` is never placed, yet its blocking prerequisite
`A` does not appear in the gap set — gaps are collected only in the seeding
pass, and only for concepts whose own mastery reaches the threshold. -/
theorem C2_counterexample :
    "B" ∉ (generateLearningPath
      [⟨"A", [], 0, none, none⟩, ⟨"B", ["A"], 0, none, none⟩]
      1).concepts.map (fun n => n.id) ∧
    "A" ∈ missingPrereqs
      (buildConceptMap
        [⟨"A", [], 0, none, none⟩, ⟨"B", ["A"], 0, none, none⟩]) 1
      (toNode ⟨"B", ["A"], 0, none, none⟩) ∧
    "A" ∉ (generateLearningPath
      [⟨"A", [], 0, none, none⟩, ⟨"B", ["A"], 0, none, none⟩] 1).gaps := by
  refine ⟨?_, by decide, by decide⟩
  exact blocked_not_in_path
    [⟨"A", [], 0, none, none⟩, ⟨"B", ["A"], 0, none, none⟩] 1 (by decide)
    (List.mem_cons_of_mem _ (List.mem_singleton.mpr rfl)) (by decide)

/-- C2 amended: every concept is in the ordered sequence exactly once, or
contributes no entry to it; and when such an excluded concept's own snapshot
mastery is at least τ, all of its blocking prerequisites appear in the
returned gap set.  (An excluded concept below the threshold may leave its
blocking prerequisites unreported.) -/
theorem C2_completeness_amended (concepts : List ConceptRow) (τ : ℚ)
    (hn : (concepts.map ConceptRow.id).Nodup) (c : ConceptRow)
    (hc : c ∈ concepts) :
    (((generateLearningPath concepts τ).concepts.map
      (fun n => n.id)).count c.id = 1) ∨
    (c.id ∉ (generateLearningPath concepts τ).concepts.map (fun n => n.id) ∧
      (τ ≤ c.profileMastery.getD 0 →
        ∀ p ∈ missingPrereqs (buildConceptMap concepts) τ (toNode c),
          p ∈ (generateLearningPath concepts τ).gaps)) := by
  by_cases hmem : c.id ∈ (generateLearningPath concepts τ).concepts.map
    (fun n => n.id)
  · exact Or.inl (List.count_eq_one_of_mem (gLP_master concepts τ hn).2.1 hmem)
  · refine Or.inr ⟨hmem, fun hτ p hp => ?_⟩
    have hcond : (decide (((c.id, (c.prerequisites.length : Int)) :
        String × Int).2 = (0 : Int)) ||
        masteryDefinedAndAtLeast (toNode c).masteryScore τ) = true := by
      have : masteryDefinedAndAtLeast (toNode c).masteryScore τ = true := by
        unfold masteryDefinedAndAtLeast toNode
        simpa using hτ
      rw [this, Bool.or_true]
    have hin : (c.id, (c.prerequisites.length : Int)) ∈
        buildInDegree concepts := by
      rw [buildInDegree_eq hn]
      exact List.mem_map.mpr ⟨c, hc, rfl⟩
    by_cases hm0 : (missingPrereqs (buildConceptMap concepts) τ
        (toNode c)).length = 0
    · exfalso
      obtain ⟨it, hit, hid⟩ := seedFold_queue_complete
        (buildConceptMap concepts) τ (buildInDegree concepts) ⟨[], []⟩
        (c.id, (c.prerequisites.length : Int)) hin (toNode c)
        (mapLookup_build_self hn hc) hcond hm0
      have := (gLP_master concepts τ hn).2.2 it hit
      rw [hid] at this
      exact hmem this
    · rw [gLP_gaps]
      apply mem_dedupFirst.mpr
      exact seedFold_gaps_complete (buildConceptMap concepts) τ
        (buildInDegree concepts) ⟨[], []⟩
        (c.id, (c.prerequisites.length : Int)) hin (toNode c)
        (mapLookup_build_self hn hc) hcond hm0 p hp

/-- Witness for C2's amended statement: the blocked concept `B` (mastery 1 ≥
τ) is excluded and its blocking prerequisite `A` is reported. -/
theorem C2_witness :
    (([⟨"A", [], 0, none, none⟩, ⟨"B", ["A"], 0, none, some 1⟩] :
      List ConceptRow).map ConceptRow.id).Nodup ∧
    (⟨"B", ["A"], 0, none, some 1⟩ : ConceptRow) ∈
      ([⟨"A", [], 0, none, none⟩, ⟨"B", ["A"], 0, none, some 1⟩] :
        List ConceptRow) ∧
    ((((generateLearningPath
        [⟨"A", [], 0, none, none⟩, ⟨"B", ["A"], 0, none, some 1⟩]
        1).concepts.map (fun n => n.id)).count "B" = 1) ∨
      ("B" ∉ (generateLearningPath
          [⟨"A", [], 0, none, none⟩, ⟨"B", ["A"], 0, none, some 1⟩]
          1).concepts.map (fun n => n.id) ∧
        ((1 : ℚ) ≤ (some (1 : ℚ)).getD 0 →
          ∀ p ∈ missingPrereqs
            (buildConceptMap
              [⟨"A", [], 0, none, none⟩, ⟨"B", ["A"], 0, none, some 1⟩])
            1 (toNode ⟨"B", ["A"], 0, none, some 1⟩),
            p ∈ (generateLearningPath
              [⟨"A", [], 0, none, none⟩, ⟨"B", ["A"], 0, none, some 1⟩]
              1).gaps))) :=
  ⟨by decide, List.mem_cons_of_mem _ (List.mem_singleton.mpr rfl),
    C2_completeness_amended
      [⟨"A", [], 0, none, none⟩, ⟨"B", ["A"], 0, none, some 1⟩] 1
      (by decide) _ (List.mem_cons_of_mem _ (List.mem_singleton.mpr rfl))⟩

/-- C3 counterexample: `X` prerequisite-free with mastery 0, `Y` mastered
(1 ≥ τ = 1) with prerequisite `X`.  `X` is seeded into the path (in-degree
0), while the seeding pass also pushes `X` into the gap list as `Y`'s
missing prerequisite — the same id is in the ordered sequence and the gap
set of the same run. -/
theorem C3_counterexample :
    "X" ∈ (generateLearningPath
      [⟨"X", [], 0, none, some 0⟩, ⟨"Y", ["X"], 0, none, some 1⟩]
      1).concepts.map (fun n => n.id) ∧
    "X" ∈ (generateLearningPath
      [⟨"X", [], 0, none, some 0⟩, ⟨"Y", ["X"], 0, none, some 1⟩]
      1).gaps := by
  constructor
  · exact zeroPrereq_mem_path
      [⟨"X", [], 0, none, some 0⟩, ⟨"Y", ["X"], 0, none, some 1⟩] 1
      (by decide) (List.mem_cons_self _ _) rfl
  · decide

/-- C3 amended: the only way an id can be in both the ordered sequence and
the gap set of one run is the one the counterexample exhibits: the concept
is itself below the threshold (so it can be scheduled as a root) while also
being a prerequisite of some concept whose own mastery is at/above the
threshold (which reports it as a gap during seeding).  Mastered concepts
never appear in the gap set. -/
theorem C3_disjointness_amended (concepts : List ConceptRow) (τ : ℚ)
    (hn : (concepts.map ConceptRow.id).Nodup) (x : String)
    (hx : x ∈ (generateLearningPath concepts τ).concepts.map (fun n => n.id))
    (hg : x ∈ (generateLearningPath concepts τ).gaps) :
    (∃ cx ∈ concepts, cx.id = x ∧ cx.profileMastery.getD 0 < τ) ∧
    (∃ cy ∈ concepts, τ ≤ cy.profileMastery.getD 0 ∧
      x ∈ cy.prerequisites) := by
  rw [gLP_gaps] at hg
  rcases seedFold_gaps_sound (buildConceptMap concepts) τ
    (buildInDegree concepts) ⟨[], []⟩ x (mem_dedupFirst.mp hg) with h | h
  · cases h
  obtain ⟨kv, hkv, node, hlook, hcond, hmiss⟩ := h
  rw [buildInDegree_eq hn] at hkv
  obtain ⟨cy, hcy, hkveq⟩ := List.mem_map.mp hkv
  have hkv1 : kv.1 = cy.id := by rw [← hkveq]
  have hkv2 : kv.2 = (cy.prerequisites.length : Int) := by rw [← hkveq]
  rw [hkv1, mapLookup_build_self hn hcy] at hlook
  injection hlook with hnode
  subst hnode
  have hxprereq : x ∈ cy.prerequisites ∧
      (mapLookup (buildConceptMap concepts) x = none ∨
        ∃ pn, mapLookup (buildConceptMap concepts) x = some pn ∧
          pn.masteryScore.getD 0 < τ) := by
    unfold missingPrereqs at hmiss
    have hmem := (List.mem_filter.mp hmiss).1
    have hb := (List.mem_filter.mp hmiss).2
    refine ⟨hmem, ?_⟩
    cases hl : mapLookup (buildConceptMap concepts) x with
    | none => exact Or.inl rfl
    | some pn =>
      rw [hl] at hb
      exact Or.inr ⟨pn, rfl, by simpa using hb⟩
  constructor
  · obtain ⟨nx, hnx, hnxid⟩ := List.mem_map.mp hx
    obtain ⟨hlx, _⟩ := (gLP_master concepts τ hn).1 nx hnx
    rw [hnxid] at hlx
    rcases hxprereq.2 with hnone | ⟨pn, hpn, hlt⟩
    · rw [hlx] at hnone
      cases hnone
    · rw [hlx] at hpn
      injection hpn with hpe
      obtain ⟨cx, hcx, hcxid, hcxnode⟩ := mapLookup_build_inv hn hlx
      refine ⟨cx, hcx, hcxid, ?_⟩
      rw [← hpe, hcxnode] at hlt
      simpa [toNode] using hlt
  · have hτcy : τ ≤ cy.profileMastery.getD 0 := by
      rcases Bool.or_eq_true_iff.mp hcond with h0 | hmast
      · exfalso
        have : cy.prerequisites.length = 0 := by
          have := decide_eq_true_eq.mp h0
          rw [hkv2] at this
          exact_mod_cast this
        have hnil : cy.prerequisites = [] := List.length_eq_zero.mp this
        rw [hnil] at hxprereq
        cases hxprereq.1
      · unfold masteryDefinedAndAtLeast toNode at hmast
        simpa using hmast
    exact ⟨cy, hcy, hτcy, hxprereq.1⟩

/-- Witness for C3's amended statement, at the counterexample input. -/
theorem C3_witness :
    (([⟨"X", [], 0, none, some 0⟩, ⟨"Y", ["X"], 0, none, some 1⟩] :
      List ConceptRow).map ConceptRow.id).Nodup ∧
    "X" ∈ (generateLearningPath
      [⟨"X", [], 0, none, some 0⟩, ⟨"Y", ["X"], 0, none, some 1⟩]
      1).concepts.map (fun n => n.id) ∧
    "X" ∈ (generateLearningPath
      [⟨"X", [], 0, none, some 0⟩, ⟨"Y", ["X"], 0, none, some 1⟩]
      1).gaps ∧
    ((∃ cx ∈ ([⟨"X", [], 0, none, some 0⟩, ⟨"Y", ["X"], 0, none, some 1⟩] :
        List ConceptRow), cx.id = "X" ∧ cx.profileMastery.getD 0 < 1) ∧
      (∃ cy ∈ ([⟨"X", [], 0, none, some 0⟩, ⟨"Y", ["X"], 0, none, some 1⟩] :
        List ConceptRow), (1 : ℚ) ≤ cy.profileMastery.getD 0 ∧
        "X" ∈ cy.prerequisites)) := by
  have hx : "X" ∈ (generateLearningPath
      [⟨"X", [], 0, none, some 0⟩, ⟨"Y", ["X"], 0, none, some 1⟩]
      1).concepts.map (fun n => n.id) :=
    zeroPrereq_mem_path
      [⟨"X", [], 0, none, some 0⟩, ⟨"Y", ["X"], 0, none, some 1⟩] 1
      (by decide) (List.mem_cons_self _ _) rfl
  have hg : "X" ∈ (generateLearningPath
      [⟨"X", [], 0, none, some 0⟩, ⟨"Y", ["X"], 0, none, some 1⟩]
      1).gaps := by decide
  exact ⟨by decide, hx, hg,
    C3_disjointness_amended
      [⟨"X", [], 0, none, some 0⟩, ⟨"Y", ["X"], 0, none, some 1⟩] 1
      (by decide) "X" hx hg⟩

/-- C4 counterexample: for the two-concept mutual cycle (no recorded
mastery, τ = 1) the gap set does not contain the cycle members — it is
empty — so the claimed "gap set containing both concept IDs" fails. -/
theorem C4_counterexample :
    ¬ ((generateLearningPath
        [⟨"a", ["b"], 0, none, none⟩, ⟨"b", ["a"], 0, none, none⟩]
        1).concepts = [] ∧
      "a" ∈ (generateLearningPath
        [⟨"a", ["b"], 0, none, none⟩, ⟨"b", ["a"], 0, none, none⟩]
        1).gaps ∧
      "b" ∈ (generateLearningPath
        [⟨"a", ["b"], 0, none, none⟩, ⟨"b", ["a"], 0, none, none⟩]
        1).gaps) :=
  fun h => absurd h.2.1 (by decide)

/-- C4 amended: a two-node mutual-prerequisite cycle with no recorded
mastery and a positive threshold terminates and yields an empty ordered
sequence — but also an *empty* gap set: neither member is ever seeded (each
has in-degree 1 and mastery 0 < τ), and the gap list is only written during
seeding, so the cycle is dropped silently rather than reported. -/
theorem C4_cycle_silently_dropped (ida idb : String) (d1 d2 : ℚ)
    (t1 t2 : Option ℚ) (τ : ℚ) (hne : ida ≠ idb) (hτ : 0 < τ) :
    generateLearningPath
      [⟨ida, [idb], d1, t1, none⟩, ⟨idb, [ida], d2, t2, none⟩] τ =
      ⟨[], 0, []⟩ := by
  have hle : ¬ (τ ≤ (0 : ℚ)) := not_le.mpr hτ
  have hseed : seedQueue
      (buildConceptMap
        [⟨ida, [idb], d1, t1, none⟩, ⟨idb, [ida], d2, t2, none⟩])
      (buildInDegree
        [⟨ida, [idb], d1, t1, none⟩, ⟨idb, [ida], d2, t2, none⟩]) τ =
      ⟨[], []⟩ := by
    simp [seedQueue, seedStep, buildConceptMap, buildInDegree, mapSet,
      mapLookup, toNode, masteryDefinedAndAtLeast, hne, hle, List.find?]
  simp only [generateLearningPath, hseed]
  rw [processQueue_nil _ _ _ _ rfl]
  rfl

/-- Witness for C4's amended statement. -/
theorem C4_witness :
    ("a" ≠ "b") ∧ ((0 : ℚ) < 1) ∧
    generateLearningPath
      [⟨"a", ["b"], 0, none, none⟩, ⟨"b", ["a"], 0, none, none⟩] 1 =
      ⟨[], 0, []⟩ :=
  ⟨by decide, by decide,
    C4_cycle_silently_dropped "a" "b" 0 0 none none 1 (by decide)
      (by decide)⟩

/-- C6: for every node carrying a mastery score `m` — as every node built by
`generateLearningPath` does, with `m = 0` for an absent profile — the
priority computed by `calculatePriority` is exactly
`(1 - m) * 0.3 - d * 0.2 - g * 0.5`. -/
theorem C6_priority_formula (node : ConceptNode) (gapCount : Nat) (m : ℚ)
    (h : node.masteryScore = some m) :
    calculatePriority node gapCount =
      (1 - m) * (3 / 10) - node.difficulty * (2 / 10) -
        (gapCount : ℚ) * (5 / 10) := by
  unfold calculatePriority
  rw [h]

/-- Witness for C6 at a concrete node and gap count. -/
theorem C6_witness :
    (⟨"n", [], 1, some 0⟩ : ConceptNode).masteryScore = some 0 ∧
    calculatePriority ⟨"n", [], 1, some 0⟩ 2 =
      (1 - 0) * (3 / 10) -
        (⟨"n", [], 1, some 0⟩ : ConceptNode).difficulty * (2 / 10) -
        ((2 : Nat) : ℚ) * (5 / 10) :=
  ⟨rfl, C6_priority_formula ⟨"n", [], 1, some 0⟩ 2 0 rfl⟩

/-! ## Adaptation loop: `reorderPath`

The source's (private) reordering pass over an already-computed path: filter
the path into remediation concepts and the rest, then run two append-only
passes guarded by a running `added` set (modelled as a list with the same
membership).  A concept is appended only when every one of its prerequisite
ids is already in `added`; a concept failing the check at its turn is
skipped and never reconsidered. -/

/-- One append attempt: add the concept iff all its prerequisites are
already in the `added` set (`concept.prerequisites.every(...)`). -/
def reorderAdd (acc : List ConceptNode × List String)
    (concept : ConceptNode) : List ConceptNode × List String :=
  if concept.prerequisites.all (fun p => decide (p ∈ acc.2)) then
    (acc.1 ++ [concept], acc.2 ++ [concept.id])
  else acc

/-- The second loop's body, with its extra `!added.has(concept.id)`
guard. -/
def reorderFill (acc : List ConceptNode × List String)
    (concept : ConceptNode) : List ConceptNode × List String :=
  if decide (concept.id ∉ acc.2) then reorderAdd acc concept else acc

/-- Model of `AdaptationLoop.reorderPath` (the unused `userId`/`subjectId`
parameters are dropped): remediation concepts first, then the remaining
concepts in their original relative order. -/
def reorderPath (currentPath : LearningPath)
    (remediationNeeded : List String) : LearningPath :=
  if remediationNeeded.length = 0 then currentPath
  else
    let remediationConcepts := currentPath.concepts.filter
      (fun c => decide (c.id ∈ remediationNeeded))
    let otherConcepts := currentPath.concepts.filter
      (fun c => decide (c.id ∉ remediationNeeded))
    let acc1 := remediationConcepts.foldl reorderAdd ([], [])
    let acc2 := otherConcepts.foldl reorderFill acc1
    { currentPath with concepts := acc2.1 }

/-- Prefix-closedness: every concept in the list has all its prerequisites
placed strictly earlier. -/
def placedOk (l : List ConceptNode) : Prop :=
  ∀ (i : Nat) (h : i < l.length), ∀ p ∈ (l.get ⟨i, h⟩).prerequisites,
    p ∈ (l.take i).map (fun n => n.id)

theorem placedOk_append {l : List ConceptNode} {c : ConceptNode}
    (hl : placedOk l) (hc : ∀ p ∈ c.prerequisites,
      p ∈ l.map (fun n => n.id)) : placedOk (l ++ [c]) := by
  intro i h p hp
  rcases Nat.lt_or_ge i l.length with hi | hi
  · have hget : (l ++ [c]).get ⟨i, h⟩ = l.get ⟨i, hi⟩ := by
      rw [List.get_eq_getElem, List.get_eq_getElem, List.getElem_append_left]
    have htake : (l ++ [c]).take i = l.take i :=
      List.take_append_of_le_length (Nat.le_of_lt hi)
    rw [htake]
    rw [hget] at hp
    exact hl i hi p hp
  · have hieq : i = l.length := by
      have := h
      simp only [List.length_append, List.length_singleton] at this
      omega
    subst hieq
    have hget : (l ++ [c]).get ⟨l.length, h⟩ = c := by
      simp [List.get_eq_getElem, List.getElem_concat_length]
    have htake : (l ++ [c]).take l.length = l := List.take_left l [c]
    rw [htake]
    rw [hget] at hp
    exact hc p hp

/-- The invariant of both reorder passes: the `added` list is exactly the id
sequence of the accumulated concepts, and the accumulated list is
prefix-closed. -/
theorem reorderFold_inv (step : Bool) :
    ∀ (l : List ConceptNode) (acc : List ConceptNode × List String),
      acc.2 = acc.1.map (fun n => n.id) → placedOk acc.1 →
      (if step then l.foldl reorderFill acc else l.foldl reorderAdd acc).2 =
        (if step then l.foldl reorderFill acc
          else l.foldl reorderAdd acc).1.map (fun n => n.id) ∧
      placedOk (if step then l.foldl reorderFill acc
        else l.foldl reorderAdd acc).1 := by
  intro l
  induction l with
  | nil =>
    intro acc h1 h2
    cases step <;> exact ⟨h1, h2⟩
  | cons c cs ih =>
    intro acc h1 h2
    have hstep : ∀ acc' : List ConceptNode × List String,
        acc'.2 = acc'.1.map (fun n => n.id) → placedOk acc'.1 →
        (reorderAdd acc' c).2 = (reorderAdd acc' c).1.map (fun n => n.id) ∧
        placedOk (reorderAdd acc' c).1 := by
      intro acc' ha1 ha2
      unfold reorderAdd
      by_cases hall : c.prerequisites.all (fun p => decide (p ∈ acc'.2)) = true
      · rw [if_pos hall]
        constructor
        · simp [ha1]
        · apply placedOk_append ha2
          intro p hp
          have := List.all_eq_true.mp hall p hp
          rw [ha1] at this
          simpa using this
      · rw [if_neg hall]
        exact ⟨ha1, ha2⟩
    have hfill : ∀ acc' : List ConceptNode × List String,
        acc'.2 = acc'.1.map (fun n => n.id) → placedOk acc'.1 →
        (reorderFill acc' c).2 = (reorderFill acc' c).1.map (fun n => n.id) ∧
        placedOk (reorderFill acc' c).1 := by
      intro acc' ha1 ha2
      unfold reorderFill
      by_cases hmem : c.id ∉ acc'.2
      · rw [if_pos (by simpa using hmem)]
        exact hstep acc' ha1 ha2
      · rw [if_neg (by simpa using hmem)]
        exact ⟨ha1, ha2⟩
    cases step
    · simp only [Bool.false_eq_true, if_false, List.foldl_cons]
      have h3 := hstep acc h1 h2
      have := ih (reorderAdd acc c) h3.1 h3.2
      simpa using this
    · simp only [if_true, List.foldl_cons]
      have h3 := hfill acc h1 h2
      have := ih (reorderFill acc c) h3.1 h3.2
      simpa using this

/-- C7 counterexample: path `[A, B, C, D]` (`B`, `C` require `A`; `D`
requires `B`, `C`) reordered with priority `["D"]` yields `[A, B, C]` — `D`
is silently dropped, because its prerequisites are not yet in the running
`added` set when the priority pass scans it, and the fill pass never
revisits priority concepts. -/
theorem C7_counterexample :
    ((reorderPath
      ⟨[⟨"A", [], 0, some 0⟩, ⟨"B", ["A"], 0, some 0⟩,
        ⟨"C", ["A"], 0, some 0⟩, ⟨"D", ["B", "C"], 0, some 0⟩], 0, []⟩
      ["D"]).concepts.map (fun n => n.id) = ["A", "B", "C"]) ∧
    "D" ∉ (reorderPath
      ⟨[⟨"A", [], 0, some 0⟩, ⟨"B", ["A"], 0, some 0⟩,
        ⟨"C", ["A"], 0, some 0⟩, ⟨"D", ["B", "C"], 0, some 0⟩], 0, []⟩
      ["D"]).concepts.map (fun n => n.id) := by
  constructor <;> decide

/-- C7 amended: when the priority set is non-empty, `reorderPath` appends a
concept (priority concepts first, then the remaining ones in original
relative order) only once every prerequisite of it is in the running
already-placed set, so each placed concept's prerequisites appear earlier in
the result; a concept whose prerequisites are not yet placed when it is
scanned is omitted from the result — as the counterexample shows for `D` —
rather than reordered after them. -/
theorem C7_reorder_placement (currentPath : LearningPath)
    (remediationNeeded : List String)
    (hne : remediationNeeded.length ≠ 0) :
    placedOk (reorderPath currentPath remediationNeeded).concepts := by
  unfold reorderPath
  rw [if_neg hne]
  have h1 := reorderFold_inv false
    (currentPath.concepts.filter (fun c => decide (c.id ∈ remediationNeeded)))
    ([], []) rfl (by intro i h; cases h)
  simp only [if_neg, Bool.false_eq_true, if_false] at h1
  have h2 := reorderFold_inv true
    (currentPath.concepts.filter (fun c => decide (c.id ∉ remediationNeeded)))
    _ h1.1 h1.2
  simpa using h2.2

/-- Witness for C7's amended statement at the reordering scenario. -/
theorem C7_witness :
    ((["D"] : List String).length ≠ 0) ∧
    placedOk (reorderPath
      ⟨[⟨"A", [], 0, some 0⟩, ⟨"B", ["A"], 0, some 0⟩,
        ⟨"C", ["A"], 0, some 0⟩, ⟨"D", ["B", "C"], 0, some 0⟩], 0, []⟩
      ["D"]).concepts :=
  ⟨by decide,
    C7_reorder_placement
      ⟨[⟨"A", [], 0, some 0⟩, ⟨"B", ["A"], 0, some 0⟩,
        ⟨"C", ["A"], 0, some 0⟩, ⟨"D", ["B", "C"], 0, some 0⟩], 0, []⟩
      ["D"] (by decide)⟩

end ALP
